import Mathlib

/-!
Verification development for `replace_images.py` of OPTCGSimAltArtScript.

The script substitutes alternate-artwork card images for a game's asset
files.  We shallowly embed its data model and operations:

* Python `pathlib.Path` becomes `MPath`, a list of path segments; `name`,
  `stem`, `suffix`, `with_suffix` and `parts` are modelled after pathlib's
  documented semantics (`suffix` is the part of the final segment from its
  last dot, provided that dot is neither the first nor the last character).
* `Path.rglob(pattern)` matches the *name* of every file anywhere under the
  tree against the pattern with `fnmatch` glob semantics (`*`, `?`, `[...]`
  are wildcards, everything else is literal).  We model a directory tree as
  the list of its files in enumeration order and implement the glob
  matcher (`compilePat` / `gmatch`) after `fnmatch.translate`.
* Python's `sorted(xs, key=k)` is the unique stable sort by the total
  preorder `k a ≤ k b`; we realise it as `List.insertionSort`, which is
  stable, with `keyLe` implementing the lexicographic comparison of the
  key tuple `(name.endswith("_small"), len(parts), name)` used by
  `TargetFinder.sort_targets_by_priority` (tuples compare left to right,
  `False < True`, strings compare by code points).
* Filesystem effects (`unlink`, `save`, `copy2`) act on a `List MPath` of
  existing files; operations that the script wraps in try/except are given
  a failure oracle.  Exceptions that escape a function are modelled with
  `Except`, the error value carrying the on-disk state at the raise point.
* Decoded images become `PImage`: a PIL mode tag, a size, the decoded
  pixel content expressed as RGBA (gray modes store the gray level in all
  three colour channels, alpha-free modes store alpha 255), and the
  "transparency" info flag.  Pixel blending in `Image.paste` with an alpha
  mask follows PIL's `BLEND`/`MULDIV255` integer arithmetic.
-/

namespace AltArt

/-- Model of `pathlib.Path`: the tuple of path segments (`Path.parts`). -/
structure MPath where
  parts : List String
deriving DecidableEq, Repr

/-- Python `Path.name`: the final path segment (empty for an empty path). -/
def MPath.name (p : MPath) : String := (p.parts.getLast?).getD ""

/-- Index of the last dot of a name, if any. -/
def lastDotIdx (n : List Char) : Option Nat :=
  match n.reverse.findIdx? (fun c => c == '.') with
  | none => none
  | some j => some (n.length - 1 - j)

/-- Python `PurePath.suffix` of a name: `name[i:]` for `i` the last dot
position when `0 < i < len(name) - 1`, otherwise the empty string. -/
def nameSuffix (s : String) : String :=
  let n := s.toList
  match lastDotIdx n with
  | none => ""
  | some i => if 0 < i ∧ i < n.length - 1 then String.mk (n.drop i) else ""

/-- Python `PurePath.stem` of a name: the name with `nameSuffix` removed. -/
def nameStem (s : String) : String :=
  let n := s.toList
  match lastDotIdx n with
  | none => s
  | some i => if 0 < i ∧ i < n.length - 1 then String.mk (n.take i) else s

/-- Python `PurePath.with_suffix` on a name: the stem with the new suffix. -/
def nameWithSuffix (s suf : String) : String := nameStem s ++ suf

/-- Python `Path.with_suffix`: replace the suffix of the final segment. -/
def MPath.withSuffix (p : MPath) (suf : String) : MPath :=
  ⟨p.parts.dropLast ++ [nameWithSuffix p.name suf]⟩

/-- Python `Path.suffix`. -/
def MPath.suffix (p : MPath) : String := nameSuffix p.name

/-- Python `Path.stem`. -/
def MPath.stem (p : MPath) : String := nameStem p.name

/-- Python `str.endswith`. -/
def strEndsWith (s suf : String) : Bool := suf.toList.isSuffixOf s.toList

/-- Python `str.lower()` (ASCII, which covers the extensions compared). -/
def strLower (s : String) : String := String.mk (s.toList.map Char.toLower)

/-- Python `str.rstrip()`: drop trailing whitespace. -/
def rstrip (s : String) : String :=
  String.mk ((s.toList.reverse.dropWhile Char.isWhitespace).reverse)

/-- Python code-point comparison of strings, `a <= b`, as used by `sorted`. -/
def chLexLe : List Char → List Char → Bool
  | [], _ => true
  | _ :: _, [] => false
  | a :: as, b :: bs => if a = b then chLexLe as bs else decide (a < b)

/-- String `a <= b` by code points (Python string comparison). -/
def strLe (a b : String) : Bool := chLexLe a.toList b.toList

/-! ### Identifier extraction (`CardNameBases`) -/

/-- Container for different base name variations of a card
(`CardNameBases` in `replace_images.py`). -/
structure CardNameBases where
  full_stem : String
  card_code : Option String
  before_parenthesis : Option String
deriving DecidableEq, Repr

/-- Test for the alternation `(?i)(?:OP|ST|EB)` of `CARD_CODE_PATTERN`. -/
def codeLetters (a b : Char) : Bool :=
  (a.toUpper == 'O' && b.toUpper == 'P') ||
  (a.toUpper == 'S' && b.toUpper == 'T') ||
  (a.toUpper == 'E' && b.toUpper == 'B')

/-- Match `CARD_CODE_PATTERN` = `(?i)(?:OP|ST|EB)\d{2}-\d{3}` at the head
of the character list (the pattern has fixed width 8).  Digits are
modelled as ASCII digits. -/
def codeAt : List Char → Option (List Char)
  | a :: b :: c :: d :: e :: f :: g :: h :: _ =>
    if codeLetters a b && c.isDigit && d.isDigit && e == '-' &&
        f.isDigit && g.isDigit && h.isDigit then
      some [a, b, c, d, e, f, g, h]
    else none
  | _ => none

/-- Python `re.search` for a fixed-width pattern: the leftmost match. -/
def searchCode : List Char → Option (List Char)
  | [] => none
  | a :: rest =>
    match codeAt (a :: rest) with
    | some m => some m
    | none => searchCode rest

/-- Embedding of `CardNameBases.from_filename`: extract the optional card
code (upper-cased first regex match) and the optional text before the
first parenthesis (right-stripped). -/
def CardNameBases.from_filename (stem : String) : CardNameBases :=
  let card_code := (searchCode stem.toList).map fun m => String.mk (m.map Char.toUpper)
  let before_parenthesis :=
    if stem.toList.contains '(' then
      some (rstrip (String.mk (stem.toList.takeWhile fun c => c ≠ '(')))
    else none
  ⟨stem, card_code, before_parenthesis⟩

/-- Embedding of `CardNameBases.get_unique_bases`: start from the full
stem, then append the card code and the before-parenthesis text when they
are truthy (non-`None` and non-empty) and not already present. -/
def CardNameBases.get_unique_bases (b : CardNameBases) : List String :=
  let bases := [b.full_stem]
  let bases :=
    match b.card_code with
    | some c => if c ≠ "" ∧ c ∉ bases then bases ++ [c] else bases
    | none => bases
  match b.before_parenthesis with
  | some q => if q ≠ "" ∧ q ∉ bases then bases ++ [q] else bases
  | none => bases

/-! ### Glob matching (`Path.rglob` with `fnmatch` pattern semantics) -/

/-- Position of the closing `]` of a bracket set, scanning the characters
that follow `[`: an initial `!` and an immediately following `]` belong to
the set, after which the first `]` closes it (per `fnmatch.translate`). -/
def bracketEnd (l : List Char) : Option Nat :=
  let j0 := if l.head? = some '!' then 1 else 0
  let j1 := if (l.drop j0).head? = some ']' then j0 + 1 else j0
  match (l.drop j1).findIdx? (fun c => c == ']') with
  | none => none
  | some k => some (j1 + k)

/-- Membership of a character in a bracket-set body: `a-b` spans a
code-point range, any other character stands for itself (per
`fnmatch.translate`; a `-` first or last is literal, an inverted range is
empty). -/
def matchSet : List Char → Char → Bool
  | a :: '-' :: b :: rest, c =>
    (decide (a ≤ c) && decide (c ≤ b)) || matchSet rest c
  | a :: rest, c => (a == c) || matchSet rest c
  | [], _ => false

/-- Token of a compiled glob pattern. -/
inductive GTok where
  | lit (c : Char)
  | anyChar
  | star
  | chSet (neg : Bool) (body : List Char)
deriving DecidableEq, Repr

/-- Compile a glob pattern into tokens (after `fnmatch.translate`): `*`,
`?` and well-formed `[...]` sets are wildcards; a `[` with no closing `]`
and every other character are literals.  Fuel-driven so the function is
structurally recursive; fuel `l.length` suffices since every step consumes
at least one character. -/
def compilePatAux : Nat → List Char → List GTok
  | 0, _ => []
  | _, [] => []
  | fuel + 1, c :: rest =>
    if c == '*' then .star :: compilePatAux fuel rest
    else if c == '?' then .anyChar :: compilePatAux fuel rest
    else if c == '[' then
      match bracketEnd rest with
      | none => .lit '[' :: compilePatAux fuel rest
      | some j =>
        let stuff := rest.take j
        let neg := decide (stuff.head? = some '!')
        let body := if stuff.head? = some '!' then stuff.drop 1 else stuff
        .chSet neg body :: compilePatAux fuel (rest.drop (j + 1))
    else .lit c :: compilePatAux fuel rest

/-- Compile a glob pattern. -/
def compilePat (p : List Char) : List GTok := compilePatAux p.length p

/-- Does `f` hold of some suffix of the list (including itself and `[]`)?
Used to give `*` its match-any-sequence semantics. -/
def anySuffix (f : List Char → Bool) : List Char → Bool
  | [] => f []
  | c :: s => f (c :: s) || anySuffix f s

/-- Match a compiled glob pattern against a whole string (the regex from
`fnmatch.translate` is applied with `re.fullmatch` semantics). -/
def gmatch : List GTok → List Char → Bool
  | [], [] => true
  | [], _ :: _ => false
  | .star :: ps, s => anySuffix (gmatch ps) s
  | .anyChar :: ps, _ :: s => gmatch ps s
  | .anyChar :: _, [] => false
  | .chSet neg body :: ps, c :: s => (neg != matchSet body c) && gmatch ps s
  | .chSet _ _ :: _, [] => false
  | .lit a :: ps, c :: s => (a == c) && gmatch ps s
  | .lit _ :: _, [] => false

/-- Match one glob pattern against one file name. -/
def globMatch (pat : String) (s : String) : Bool :=
  gmatch (compilePat pat.toList) s.toList

/-- Whether a pattern fragment is free of the glob metacharacters `*`,
`?` and `[` (on such fragments glob matching is string equality). -/
def noGlobMeta (l : List Char) : Bool :=
  l.all fun c => decide (c ≠ '*' ∧ c ≠ '?' ∧ c ≠ '[')

/-- Model of `Path.rglob(pat)` over a directory tree, the tree being the
list of its files in enumeration order: every file anywhere under the
tree whose name matches the glob pattern. -/
def rglobMatches (tree : List MPath) (pat : String) : List MPath :=
  tree.filter fun p => globMatch pat p.name

/-- The module constant `ALLOWED_EXTENSIONS`. -/
def ALLOWED_EXTENSIONS : List String := [".png", ".jpg", ".jpeg"]

/-- Embedding of `TargetFinder.find_targets`: for every base name, every
extension and every suffix, extend the target list with the `rglob`
matches of `base + suffix + ext`. -/
def find_targets (tree : List MPath) (base_names : List String) : List MPath :=
  base_names.foldl
    (fun ts base =>
      ALLOWED_EXTENSIONS.foldl
        (fun ts ext =>
          ["", "_small"].foldl
            (fun ts sfx => ts ++ rglobMatches tree (base ++ sfx ++ ext)) ts)
        ts)
    []

/-! ### Target prioritisation (`sort_targets_by_priority`) -/

/-- First component of the Python sort key: `p.name.endswith("_small")`
(note: the name includes the extension). -/
def sortKeySmall (p : MPath) : Bool := strEndsWith p.name "_small"

/-- Lexicographic comparison of the Python sort key tuple
`(p.name.endswith("_small"), len(p.parts), p.name)`; `False < True`,
numbers by magnitude, strings by code points. -/
def keyLe (a b : MPath) : Bool :=
  if sortKeySmall a ≠ sortKeySmall b then decide (sortKeySmall a < sortKeySmall b)
  else if a.parts.length ≠ b.parts.length then decide (a.parts.length < b.parts.length)
  else strLe a.name b.name

/-- The sort-key preorder as a relation. -/
def keyRel (a b : MPath) : Prop := keyLe a b = true

instance : DecidableRel keyRel := fun a b =>
  inferInstanceAs (Decidable (keyLe a b = true))

/-- Embedding of `TargetFinder.sort_targets_by_priority`: Python `sorted`
is the unique stable sort by the key preorder, realised by the stable
`List.insertionSort`. -/
def sort_targets_by_priority (targets : List MPath) : List MPath :=
  List.insertionSort keyRel targets

/-! ### Format normalisation (`TargetPathConverter`) and the filesystem -/

/-- Delete a file from the directory listing (`Path.unlink`). -/
def removeFile (fs : List MPath) (p : MPath) : List MPath :=
  fs.filter fun q => q != p

/-- Create or overwrite a file (`Image.save` / `shutil.copy2`). -/
def writeFile (fs : List MPath) (p : MPath) : List MPath :=
  if p ∈ fs then fs else fs ++ [p]

/-- Embedding of `TargetPathConverter._remove_old_file`: if the file
exists, try to unlink it; a raising unlink is caught and logged, leaving
the file in place. -/
def remove_old_file (unlinkFails : MPath → Bool) (fs : List MPath) (p : MPath) :
    List MPath :=
  if p ∈ fs then (if unlinkFails p then fs else removeFile fs p) else fs

/-- Loop body of `TargetPathConverter.convert_to_png_paths`: a target
whose lower-cased suffix is not `.png` contributes its `.png`-suffixed
path to the output list and has its old file removed, any other target is
passed through unchanged. -/
def pngStep (unlinkFails : MPath → Bool) (acc : List MPath × List MPath)
    (target : MPath) : List MPath × List MPath :=
  if strLower (nameSuffix target.name) ≠ ".png" then
    (acc.1 ++ [target.withSuffix ".png"], remove_old_file unlinkFails acc.2 target)
  else (acc.1 ++ [target], acc.2)

/-- Embedding of `TargetPathConverter.convert_to_png_paths`: walk the
targets in order with `pngStep`, returning the new path list and the
resulting filesystem. -/
def convert_to_png_paths (unlinkFails : MPath → Bool) (targets : List MPath)
    (fs : List MPath) : List MPath × List MPath :=
  targets.foldl (pngStep unlinkFails) ([], fs)

/-! ### Per-image processing (`AltImageProcessor`) and the batch loop -/

/-- Failure oracle for the operations the script guards with try/except,
plus the decoder: whether `Image.open` succeeds on the alt image, and
whether each guarded filesystem call raises. -/
structure Oracle where
  decodeOk : MPath → Bool
  unlinkFails : MPath → Bool
  copyFails : MPath → Bool
  altUnlinkFails : MPath → Bool

/-- On-disk state: the asset tree files and the alt staging files. -/
structure BatchState where
  fs : List MPath
  alts : List MPath
deriving DecidableEq, Repr

/-- Candidate base names derived from an alt image file
(`CardNameBases.from_filename(self.alt_image.stem).get_unique_bases()`). -/
def altBases (alt : MPath) : List String :=
  (CardNameBases.from_filename (nameStem alt.name)).get_unique_bases

/-- Embedding of `AltImageProcessor.process`.  `Except` models an escaping
exception, the error value carrying the on-disk state at the raise point:
no targets means an early `ok` return with no side effects; otherwise the
targets are sorted and normalised (deleting stale non-PNG files), then the
alt image is decoded and saved to the primary target, copied to the
remaining targets (a failing copy is caught per target), and the alt image
is unlinked (a failing unlink is caught).  A decode failure raises after
path normalisation, so it propagates with the alt image still on disk. -/
def process (o : Oracle) (alt : MPath) (s : BatchState) : Except BatchState BatchState :=
  let targets := find_targets s.fs (altBases alt)
  if targets = [] then .ok s
  else
    let sorted := sort_targets_by_priority targets
    let res := convert_to_png_paths o.unlinkFails sorted s.fs
    match res.1 with
    | [] => .error ⟨res.2, s.alts⟩
    | primary :: restTargets =>
      if o.decodeOk alt then
        let fs2 := writeFile res.2 primary
        let fs3 := restTargets.foldl (fun f t => if o.copyFails t then f else writeFile f t) fs2
        let alts2 := if o.altUnlinkFails alt then s.alts else removeFile s.alts alt
        .ok ⟨fs3, alts2⟩
      else .error ⟨res.2, s.alts⟩

/-- The try/except body of the batch loop in `replace_alt_cards`: an
exception escaping `process` is caught and the loop continues with the
state left behind by the failed processing. -/
def stepCaught (o : Oracle) (s : BatchState) (alt : MPath) : BatchState :=
  match process o alt s with
  | .ok s2 => s2
  | .error s2 => s2

/-- Embedding of the loop of `replace_alt_cards` over the staged alt
images. -/
def replace_alt_cards (o : Oracle) (alts : List MPath) (s : BatchState) : BatchState :=
  alts.foldl (stepCaught o) s

/-! ### Decoded images (`ImageConverter`) -/

/-- PIL image modes distinguished by `convert_to_rgb` (`P` is palette,
`LA` gray plus alpha; the remaining tags stand for the other modes the
branch `image.mode != "RGB"` coerces). -/
inductive PMode where
  | RGB | RGBA | LA | P | L | CMYK | HSV | one
deriving DecidableEq, Repr

/-- One pixel as an RGBA quadruple of 8-bit channel values. -/
structure Rgba where
  r : Nat
  g : Nat
  b : Nat
  a : Nat
deriving DecidableEq, Repr

/-- A decoded PIL image: mode, size, the decoded pixel content expressed
as RGBA (gray modes store the gray level in the three colour channels,
alpha-free modes store alpha 255), and whether `"transparency"` is in
`image.info`. -/
structure PImage where
  mode : PMode
  width : Nat
  height : Nat
  px : Nat → Nat → Rgba
  transparency : Bool

/-- PIL `MULDIV255(a, m)`: `t = a*m + 128; ((t >> 8) + t) >> 8`, the
rounded byte product used by `Image.paste` blending. -/
def muldiv255 (a m : Nat) : Nat :=
  let t := a * m + 128
  (t / 256 + t) / 256

/-- PIL `BLEND(mask, in1, in2)` for one channel: the source channel `s`
over the background channel `bk` weighted by the mask value `m`. -/
def blendCh (m bk s : Nat) : Nat := muldiv255 bk (255 - m) + muldiv255 s m

/-- Embedding of `ImageConverter.convert_to_rgb`: an image with mode
`RGBA` or `LA`, or palette mode with transparency info, is pasted onto an
opaque white `RGB` background of the same size with its alpha channel as
the paste mask (palette images are first converted to `RGBA`, which in
this model only changes the mode tag since `px` already stores the
decoded RGBA content); any other non-`RGB` mode is converted to `RGB`;
an `RGB` image is returned unchanged. -/
def convert_to_rgb (image : PImage) : PImage :=
  if (image.mode = .RGBA ∨ image.mode = .LA) ∨ (image.mode = .P ∧ image.transparency) then
    { mode := .RGB, width := image.width, height := image.height,
      px := fun x y =>
        let q := image.px x y
        ⟨blendCh q.a 255 q.r, blendCh q.a 255 q.g, blendCh q.a 255 q.b, 255⟩,
      transparency := false }
  else if image.mode ≠ .RGB then
    { mode := .RGB, width := image.width, height := image.height,
      px := fun x y =>
        let q := image.px x y
        ⟨q.r, q.g, q.b, 255⟩,
      transparency := image.transparency }
  else image

/-- Embedding of `ImageConverter.save_as_png`: the image written to the
target is `convert_to_rgb` of the decoded source, encoded as optimised
PNG.  The function performs no other pixel or size transformation: in
particular it contains no resize step. -/
def save_as_png_image (decoded : PImage) : PImage := convert_to_rgb decoded

/-- Modelled from the spec (the repository has no such code): proportional
downscaling of an oversized image, "if the image's largest dimension
exceeds a fixed threshold (1024 px), downscale proportionally so the
largest dimension equals the threshold, preserving aspect ratio (rounding
the other dimension to nearest integer)". -/
def specDownscaleDims (w h : Nat) : Nat × Nat :=
  if max w h ≤ 1024 then (w, h)
  else if h ≤ w then (1024, (2 * (h * 1024) + w) / (2 * w))
  else ((2 * (w * 1024) + h) / (2 * h), 1024)

/-! ### Concrete inputs used by counterexamples and witnesses -/

/-- Oracle with a failing decoder and no filesystem failures. -/
def oracleDecodeFail : Oracle :=
  ⟨fun _ => false, fun _ => false, fun _ => false, fun _ => false⟩

/-- Oracle with a working decoder and no filesystem failures. -/
def oracleAllOk : Oracle :=
  ⟨fun _ => true, fun _ => false, fun _ => false, fun _ => false⟩

/-- A staged alternate image `data_arts/X.png` (stem `X`). -/
def altX : MPath := ⟨["data_arts", "X.png"]⟩

/-- An existing target `X.jpg` at the root of the asset tree. -/
def tgtXjpg : MPath := ⟨["X.jpg"]⟩

/-- Initial on-disk state for the decode-failure scenario: the asset tree
holds `X.jpg`, the staging directory holds the alternate image. -/
def stateX : BatchState := ⟨[tgtXjpg], [altX]⟩

/-- A 2000 by 1500 fully-red opaque RGB source image (the input of
`test_image_resizing` in `test_compression.py`). -/
def img2000 : PImage := ⟨.RGB, 2000, 1500, fun _ _ => ⟨255, 0, 0, 255⟩, false⟩

/-- A one-pixel RGBA image whose single pixel is fully transparent. -/
def imgAlphaTest : PImage := ⟨.RGBA, 1, 1, fun _ _ => ⟨10, 20, 30, 0⟩, false⟩

end AltArt

namespace AltArt

/-! ### Lemmas about the identifier extractor -/

/-- Every result of `get_unique_bases` is the full stem, possibly followed
by one or two entries that differ from it and from each other. -/
lemma get_unique_bases_cases (b : CardNameBases) :
    b.get_unique_bases = [b.full_stem] ∨
    (∃ c, b.get_unique_bases = [b.full_stem, c] ∧ c ≠ b.full_stem) ∨
    (∃ c q, b.get_unique_bases = [b.full_stem, c, q] ∧
      c ≠ b.full_stem ∧ q ≠ b.full_stem ∧ q ≠ c) := by
  rcases b with ⟨stem, cc, bp⟩
  dsimp only [CardNameBases.get_unique_bases]
  cases cc with
  | none =>
    cases bp with
    | none => exact Or.inl rfl
    | some q =>
      dsimp only
      by_cases hq : q ≠ "" ∧ q ∉ [stem]
      · rw [if_pos hq]
        exact Or.inr (Or.inl ⟨q, rfl, by simpa using hq.2⟩)
      · rw [if_neg hq]
        exact Or.inl rfl
  | some c =>
    dsimp only
    by_cases hc : c ≠ "" ∧ c ∉ [stem]
    · rw [if_pos hc]
      simp only [List.singleton_append]
      cases bp with
      | none => exact Or.inr (Or.inl ⟨c, rfl, by simpa using hc.2⟩)
      | some q =>
        dsimp only
        by_cases hq : q ≠ "" ∧ q ∉ [stem, c]
        · rw [if_pos hq]
          simp only [List.cons_append, List.singleton_append]
          refine Or.inr (Or.inr ⟨c, q, rfl, by simpa using hc.2, ?_, ?_⟩)
          · intro h
            exact hq.2 (by simp [h])
          · intro h
            exact hq.2 (by simp [h])
        · rw [if_neg hq]
          exact Or.inr (Or.inl ⟨c, rfl, by simpa using hc.2⟩)
    · rw [if_neg hc]
      cases bp with
      | none => exact Or.inl rfl
      | some q =>
        dsimp only
        by_cases hq : q ≠ "" ∧ q ∉ [stem]
        · rw [if_pos hq]
          exact Or.inr (Or.inl ⟨q, rfl, by simpa using hq.2⟩)
        · rw [if_neg hq]
          exact Or.inl rfl

/-- The candidate list always starts with the full stem. -/
lemma get_unique_bases_head (b : CardNameBases) :
    b.get_unique_bases.head? = some b.full_stem := by
  rcases get_unique_bases_cases b with h | ⟨c, h, _⟩ | ⟨c, q, h, _⟩ <;> rw [h] <;> rfl

/-- The candidate list has no duplicates. -/
lemma get_unique_bases_nodup (b : CardNameBases) : b.get_unique_bases.Nodup := by
  rcases get_unique_bases_cases b with h | ⟨c, h, hc⟩ | ⟨c, q, h, hc, hq, hqc⟩
  · rw [h]
    simp
  · rw [h]
    simp [Ne.symm hc]
  · rw [h]
    simp [Ne.symm hc, Ne.symm hq, hqc, Ne.symm hqc]

/-- The candidate list has between one and three entries. -/
lemma get_unique_bases_length (b : CardNameBases) :
    1 ≤ b.get_unique_bases.length ∧ b.get_unique_bases.length ≤ 3 := by
  rcases get_unique_bases_cases b with h | ⟨c, h, _⟩ | ⟨c, q, h, _⟩ <;> rw [h] <;> simp

/-- With no card code and no parenthesis candidate, the list is exactly
the full stem. -/
lemma get_unique_bases_of_none (b : CardNameBases) (h1 : b.card_code = none)
    (h2 : b.before_parenthesis = none) : b.get_unique_bases = [b.full_stem] := by
  rcases b with ⟨stem, cc, bp⟩
  simp only at h1 h2
  subst h1
  subst h2
  rfl

/-- A truthy card code is always an element of the candidate list. -/
lemma card_code_mem (b : CardNameBases) (c : String) (h : b.card_code = some c)
    (hne : c ≠ "") : c ∈ b.get_unique_bases := by
  rcases b with ⟨stem, cc, bp⟩
  simp only at h
  subst h
  dsimp only [CardNameBases.get_unique_bases]
  by_cases hcs : c = stem
  · subst hcs
    rw [if_neg (by simp)]
    cases bp with
    | none => simp
    | some q =>
      dsimp only
      split
      · simp
      · simp
  · rw [if_pos ⟨hne, by simp [hcs]⟩]
    cases bp with
    | none => simp
    | some q =>
      dsimp only
      split
      · simp
      · simp

/-- A successful `codeAt` match has the pattern's fixed width, eight. -/
lemma codeAt_length {l m : List Char} (h : codeAt l = some m) : m.length = 8 := by
  unfold codeAt at h
  split at h
  · split_ifs at h with hc
    cases h
    rfl
  · cases h

/-- A successful `searchCode` match has length eight. -/
lemma searchCode_length : ∀ {l m : List Char}, searchCode l = some m → m.length = 8 := by
  intro l
  induction l with
  | nil => intro m h; cases h
  | cons a rest ih =>
    intro m h
    unfold searchCode at h
    cases hc : codeAt (a :: rest) with
    | some k =>
      rw [hc] at h
      cases h
      exact codeAt_length hc
    | none =>
      rw [hc] at h
      exact ih h

/-- The card code extracted by `from_filename` is never the empty string. -/
lemma from_filename_code_ne_empty (stem c : String)
    (h : (CardNameBases.from_filename stem).card_code = some c) : c ≠ "" := by
  dsimp only [CardNameBases.from_filename] at h
  cases hs : searchCode stem.toList with
  | none => rw [hs] at h; cases h
  | some m =>
    rw [hs] at h
    injection h with h
    intro he
    have hl : c.toList.length = 8 := by
      rw [← h]
      simpa using searchCode_length hs
    rw [he] at hl
    exact absurd hl (by decide)

/-- C9: for every input stem (any string, including stems with no card
code and no parenthesis) the identifier extractor succeeds and returns a
list that is non-empty, has the unmodified full stem as its first
element, contains no duplicate entries, and has between 1 and 3 entries;
when neither the card-code nor the before-parenthesis candidate applies,
the list is exactly `[stem]`. -/
theorem claim_C9_extractor_invariants (stem : String) :
    (CardNameBases.from_filename stem).get_unique_bases ≠ [] ∧
    ((CardNameBases.from_filename stem).get_unique_bases).head? = some stem ∧
    ((CardNameBases.from_filename stem).get_unique_bases).Nodup ∧
    1 ≤ ((CardNameBases.from_filename stem).get_unique_bases).length ∧
    ((CardNameBases.from_filename stem).get_unique_bases).length ≤ 3 ∧
    ((CardNameBases.from_filename stem).card_code = none →
      (CardNameBases.from_filename stem).before_parenthesis = none →
      (CardNameBases.from_filename stem).get_unique_bases = [stem]) := by
  have hhead : ((CardNameBases.from_filename stem).get_unique_bases).head? = some stem :=
    get_unique_bases_head (CardNameBases.from_filename stem)
  refine ⟨?_, hhead, get_unique_bases_nodup _,
    (get_unique_bases_length _).1, (get_unique_bases_length _).2, ?_⟩
  · intro h
    rw [h] at hhead
    cases hhead
  · intro h1 h2
    exact get_unique_bases_of_none _ h1 h2

/-- Witness for C9 at the concrete stem `"Luffy"` (no card code, no
parenthesis): the extractor returns exactly the full stem. -/
theorem claim_C9_extractor_invariants_witness :
    (CardNameBases.from_filename "Luffy").get_unique_bases = ["Luffy"] :=
  (claim_C9_extractor_invariants "Luffy").2.2.2.2.2 (by decide) (by decide)

/-- C5 (amended): whenever the extractor finds a card code, the candidate
list contains the upper-cased code exactly once and starts with the full
stem; the code sits at an index greater than zero exactly when it differs
from the full stem (a stem that itself is the upper-cased code yields the
code at index 0, as the full stem). -/
theorem claim_C5_code_candidate (stem c : String)
    (h : (CardNameBases.from_filename stem).card_code = some c) :
    ((CardNameBases.from_filename stem).get_unique_bases).count c = 1 ∧
    ((CardNameBases.from_filename stem).get_unique_bases).head? = some stem ∧
    (c ≠ stem → 0 < ((CardNameBases.from_filename stem).get_unique_bases).indexOf c) := by
  have hne := from_filename_code_ne_empty stem c h
  have hmem := card_code_mem _ c h hne
  have hnd := get_unique_bases_nodup (CardNameBases.from_filename stem)
  have hhead : ((CardNameBases.from_filename stem).get_unique_bases).head? = some stem :=
    get_unique_bases_head (CardNameBases.from_filename stem)
  refine ⟨List.count_eq_one_of_mem hnd hmem, hhead, ?_⟩
  intro hcs
  obtain ⟨rest, hrest⟩ :
      ∃ rest, (CardNameBases.from_filename stem).get_unique_bases = stem :: rest := by
    cases hb : (CardNameBases.from_filename stem).get_unique_bases with
    | nil => rw [hb] at hhead; cases hhead
    | cons x xs =>
      rw [hb] at hhead
      injection hhead with hx
      exact ⟨xs, by rw [hx]⟩
  rw [hrest, List.indexOf_cons_ne _ (Ne.symm hcs)]
  exact Nat.succ_pos _

/-- Counterexample for C5 as stated: the stem `"OP02-068"` contains a
card-code match, but the candidate list is `["OP02-068"]`, so the code is
the first element (index 0), not positioned after the full stem. -/
theorem claim_C5_counterexample :
    (CardNameBases.from_filename "OP02-068").card_code = some "OP02-068" ∧
    (CardNameBases.from_filename "OP02-068").get_unique_bases = ["OP02-068"] ∧
    ¬ 0 < ((CardNameBases.from_filename "OP02-068").get_unique_bases).indexOf "OP02-068" := by
  decide

/-- Witness for C5 at the concrete stem `"OP09-051Manga alt"`: the code
`"OP09-051"` differs from the stem and sits after it. -/
theorem claim_C5_code_candidate_witness :
    0 < ((CardNameBases.from_filename "OP09-051Manga alt").get_unique_bases).indexOf "OP09-051" :=
  (claim_C5_code_candidate "OP09-051Manga alt" "OP09-051" (by decide)).2.2 (by decide)

/-! ### Lemmas about format normalisation -/

/-- Membership after `remove_old_file`: the file survives unless it is the
removed target, existed, and the unlink did not fail. -/
lemma remove_old_file_mem (uf : MPath → Bool) (fs : List MPath) (t q : MPath) :
    q ∈ remove_old_file uf fs t ↔ q ∈ fs ∧ (uf t = false → q ≠ t) := by
  unfold remove_old_file removeFile
  by_cases ht : t ∈ fs
  · rw [if_pos ht]
    by_cases hf : uf t
    · rw [if_pos hf]
      constructor
      · intro hq
        exact ⟨hq, fun hfalse => absurd hf (by simp [hfalse])⟩
      · exact fun h => h.1
    · rw [if_neg hf]
      simp only [List.mem_filter, bne_iff_ne]
      constructor
      · rintro ⟨hq, hne⟩
        exact ⟨hq, fun _ => hne⟩
      · rintro ⟨hq, hne⟩
        exact ⟨hq, hne (by simpa using hf)⟩
  · rw [if_neg ht]
    constructor
    · intro hq
      refine ⟨hq, fun _ he => ht ?_⟩
      rw [← he]
      exact hq
    · exact fun h => h.1

/-- Accumulator form of the normalisation fold: a run started with an
accumulated output list prepends it to the run started empty, and the
filesystem result is independent of the accumulator. -/
lemma pngStep_foldl_acc (uf : MPath → Bool) :
    ∀ (ts : List MPath) (acc fs : List MPath),
      List.foldl (pngStep uf) (acc, fs) ts =
        (acc ++ (convert_to_png_paths uf ts fs).1, (convert_to_png_paths uf ts fs).2) := by
  intro ts
  induction ts with
  | nil => intro acc fs; simp [convert_to_png_paths]
  | cons t ts ih =>
    intro acc fs
    simp only [convert_to_png_paths, List.foldl_cons]
    by_cases hc : strLower (nameSuffix t.name) ≠ ".png"
    · rw [show pngStep uf (acc, fs) t =
          (acc ++ [t.withSuffix ".png"], remove_old_file uf fs t) by
            simp [pngStep, hc],
        show pngStep uf (([] : List MPath), fs) t =
          ([t.withSuffix ".png"], remove_old_file uf fs t) by
            simp [pngStep, hc],
        ih, ih]
      simp
    · rw [show pngStep uf (acc, fs) t = (acc ++ [t], fs) by simp [pngStep, hc],
        show pngStep uf (([] : List MPath), fs) t = ([t], fs) by simp [pngStep, hc],
        ih, ih]
      simp

/-- Unfolding of the normalisation over a first target. -/
lemma convert_to_png_paths_cons (uf : MPath → Bool) (t : MPath) (ts fs : List MPath) :
    convert_to_png_paths uf (t :: ts) fs =
      (if strLower (nameSuffix t.name) ≠ ".png" then
        ((t.withSuffix ".png") ::
            (convert_to_png_paths uf ts (remove_old_file uf fs t)).1,
          (convert_to_png_paths uf ts (remove_old_file uf fs t)).2)
      else (t :: (convert_to_png_paths uf ts fs).1, (convert_to_png_paths uf ts fs).2)) := by
  simp only [convert_to_png_paths, List.foldl_cons]
  by_cases hc : strLower (nameSuffix t.name) ≠ ".png"
  · rw [if_pos hc,
      show pngStep uf (([] : List MPath), fs) t =
        ([t.withSuffix ".png"], remove_old_file uf fs t) by simp [pngStep, hc],
      pngStep_foldl_acc]
    simp [convert_to_png_paths]
  · rw [if_neg hc,
      show pngStep uf (([] : List MPath), fs) t = ([t], fs) by simp [pngStep, hc],
      pngStep_foldl_acc]
    simp [convert_to_png_paths]

/-- The returned path list is the input list with every non-`.png` suffix
rewritten to `.png`, in order. -/
lemma convert_to_png_paths_fst (uf : MPath → Bool) :
    ∀ (ts fs : List MPath),
      (convert_to_png_paths uf ts fs).1 =
        ts.map fun t =>
          if strLower (nameSuffix t.name) ≠ ".png" then t.withSuffix ".png" else t := by
  intro ts
  induction ts with
  | nil => intro fs; simp [convert_to_png_paths]
  | cons t ts ih =>
    intro fs
    rw [convert_to_png_paths_cons]
    by_cases hc : strLower (nameSuffix t.name) ≠ ".png"
    · rw [if_pos hc, List.map_cons, if_pos hc, ih]
    · rw [if_neg hc, List.map_cons, if_neg hc, ih]

/-- Membership in the filesystem after normalisation: a file survives iff
it was present and is not a successfully unlinked non-`.png` target. -/
lemma convert_to_png_paths_snd_mem (uf : MPath → Bool) :
    ∀ (ts fs : List MPath) (q : MPath),
      q ∈ (convert_to_png_paths uf ts fs).2 ↔
        q ∈ fs ∧ ∀ t ∈ ts, strLower (nameSuffix t.name) ≠ ".png" → uf t = false → q ≠ t := by
  intro ts
  induction ts with
  | nil => intro fs q; simp [convert_to_png_paths]
  | cons t ts ih =>
    intro fs q
    rw [convert_to_png_paths_cons]
    by_cases hc : strLower (nameSuffix t.name) ≠ ".png"
    · rw [if_pos hc]
      simp only [ih, remove_old_file_mem, List.mem_cons]
      constructor
      · rintro ⟨⟨hq, hqt⟩, hrest⟩
        refine ⟨hq, fun x hx => ?_⟩
        rcases hx with hx | hx
        · subst hx
          exact fun _ => hqt
        · exact hrest x hx
      · rintro ⟨hq, hall⟩
        exact ⟨⟨hq, hall t (Or.inl rfl) hc⟩, fun x hx => hall x (Or.inr hx)⟩
    · rw [if_neg hc]
      simp only [ih, List.mem_cons]
      constructor
      · rintro ⟨hq, hrest⟩
        refine ⟨hq, fun x hx => ?_⟩
        rcases hx with hx | hx
        · subst hx
          exact fun hcc => absurd hcc hc
        · exact hrest x hx
      · rintro ⟨hq, hall⟩
        exact ⟨hq, fun x hx => hall x (Or.inr hx)⟩

/-- C6: the format normaliser returns a parallel list of the same length
and order in which every path whose extension is not `.png`
(case-insensitive) is rewritten to `.png` — also when the unlink of the
stale file fails — and every `.png` path is returned unchanged; on disk,
a file survives normalisation exactly when it is not a non-`.png` target
whose unlink succeeded (so stale non-`.png` files are deleted when they
exist, nothing is deleted for `.png` targets, and a failed deletion is
non-fatal). -/
theorem claim_C6_format_normalizer (uf : MPath → Bool) (ts fs : List MPath) :
    (convert_to_png_paths uf ts fs).1 =
      (ts.map fun t =>
        if strLower (nameSuffix t.name) ≠ ".png" then t.withSuffix ".png" else t) ∧
    (convert_to_png_paths uf ts fs).1.length = ts.length ∧
    (∀ q, q ∈ (convert_to_png_paths uf ts fs).2 ↔
      q ∈ fs ∧ ∀ t ∈ ts, strLower (nameSuffix t.name) ≠ ".png" → uf t = false → q ≠ t) := by
  refine ⟨convert_to_png_paths_fst uf ts fs, ?_,
    fun q => convert_to_png_paths_snd_mem uf ts fs q⟩
  rw [convert_to_png_paths_fst]
  exact List.length_map _ _

/-- Witness for C6 at a concrete one-element target list: the `.jpg`
target path is rewritten to `.png`. -/
theorem claim_C6_format_normalizer_witness :
    (convert_to_png_paths (fun _ => false) [tgtXjpg] [tgtXjpg]).1 =
      [tgtXjpg.withSuffix ".png"] := by
  have h := claim_C6_format_normalizer (fun _ => false) [tgtXjpg] [tgtXjpg]
  rw [h.1]
  decide

/-! ### Decode failure during per-image processing -/

/-- C2 (amended): when the decoder fails on an alternate image, the
exception is caught at the batch boundary, the staged alternate images on
disk are untouched (the alternate image is retained), and no target file
is created or written; however, the path-normalisation step has already
run, so an asset file survives exactly when it is not a successfully
unlinked non-`.png` located target — targets whose original extension was
`.jpg` or `.jpeg` have already been deleted when the decoder runs. -/
theorem claim_C2_decode_failure (o : Oracle) (alt : MPath) (s : BatchState)
    (h : o.decodeOk alt = false) :
    (stepCaught o s alt).alts = s.alts ∧
    (∀ q, q ∈ (stepCaught o s alt).fs ↔
      q ∈ s.fs ∧
        ∀ t ∈ sort_targets_by_priority (find_targets s.fs (altBases alt)),
          strLower (nameSuffix t.name) ≠ ".png" → o.unlinkFails t = false → q ≠ t) := by
  unfold stepCaught process
  by_cases htg : find_targets s.fs (altBases alt) = []
  · rw [if_pos htg]
    refine ⟨rfl, fun q => ?_⟩
    rw [htg]
    show q ∈ s.fs ↔ _
    simp [sort_targets_by_priority]
  · rw [if_neg htg]
    dsimp only
    cases hres : (convert_to_png_paths o.unlinkFails
        (sort_targets_by_priority (find_targets s.fs (altBases alt))) s.fs).1 with
    | nil =>
      dsimp only
      refine ⟨rfl, fun q => ?_⟩
      exact convert_to_png_paths_snd_mem _ _ _ q
    | cons primary rest =>
      rw [h]
      dsimp only
      rw [if_neg (show ¬false = true by decide)]
      dsimp only
      refine ⟨rfl, fun q => ?_⟩
      exact convert_to_png_paths_snd_mem _ _ _ q

/-- Counterexample for C2 as stated: alternate image `data_arts/X.png`
with decode failure; the located target `X.jpg` is deleted from the asset
tree by path normalisation even though the transcode never succeeds. -/
theorem claim_C2_counterexample :
    tgtXjpg ∈ stateX.fs ∧
    tgtXjpg ∈ find_targets stateX.fs (altBases altX) ∧
    process oracleDecodeFail altX stateX = .error ⟨[], stateX.alts⟩ ∧
    tgtXjpg ∉ (stepCaught oracleDecodeFail stateX altX).fs := by
  exact ⟨by decide, by decide, rfl, by decide⟩

/-- Witness for C2 (amended) at the concrete decode-failure scenario: the
staged alternate image list is unchanged. -/
theorem claim_C2_decode_failure_witness :
    (stepCaught oracleDecodeFail stateX altX).alts = stateX.alts :=
  (claim_C2_decode_failure oracleDecodeFail altX stateX rfl).1

/-! ### Lemmas about the sort key -/

/-- The code-point comparison is total. -/
lemma chLexLe_total : ∀ as bs, chLexLe as bs = true ∨ chLexLe bs as = true := by
  intro as
  induction as with
  | nil => intro bs; exact Or.inl rfl
  | cons a as ih =>
    intro bs
    cases bs with
    | nil => exact Or.inr rfl
    | cons b bs =>
      by_cases hab : a = b
      · subst hab
        simpa [chLexLe] using ih bs
      · rcases lt_or_gt_of_ne hab with h | h
        · exact Or.inl (by simp [chLexLe, hab, h])
        · exact Or.inr (by simp [chLexLe, Ne.symm hab, h])

/-- The code-point comparison is transitive. -/
lemma chLexLe_trans :
    ∀ as bs cs, chLexLe as bs = true → chLexLe bs cs = true → chLexLe as cs = true := by
  intro as
  induction as with
  | nil => intro bs cs _ _; rfl
  | cons a as ih =>
    intro bs cs h1 h2
    cases bs with
    | nil => simp [chLexLe] at h1
    | cons b bs =>
      cases cs with
      | nil => simp [chLexLe] at h2
      | cons c cs =>
        by_cases hab : a = b
        · subst hab
          simp only [chLexLe, if_pos rfl] at h1
          by_cases hbc : a = c
          · subst hbc
            simp only [chLexLe, if_pos rfl] at h2 ⊢
            exact ih bs cs h1 h2
          · simp only [chLexLe, if_neg hbc] at h2 ⊢
            exact h2
        · simp only [chLexLe, if_neg hab] at h1
          have hab' : a < b := of_decide_eq_true h1
          by_cases hbc : b = c
          · subst hbc
            simp [chLexLe, hab, hab']
          · have hbc' : b < c := by
              simpa [chLexLe, hbc] using h2
            have hac : a < c := lt_trans hab' hbc'
            simp [chLexLe, ne_of_lt hac, hac]

/-- Characterisation of the key comparison as the lexicographic order on
the Python key tuple. -/
lemma keyLe_eq_true_iff (a b : MPath) : keyLe a b = true ↔
    (sortKeySmall a = false ∧ sortKeySmall b = true) ∨
    (sortKeySmall a = sortKeySmall b ∧ a.parts.length < b.parts.length) ∨
    (sortKeySmall a = sortKeySmall b ∧ a.parts.length = b.parts.length ∧
      chLexLe a.name.toList b.name.toList = true) := by
  unfold keyLe
  by_cases h1 : sortKeySmall a = sortKeySmall b
  · rw [if_neg (by simp [h1])]
    by_cases h2 : a.parts.length = b.parts.length
    · rw [if_neg (by simp [h2])]
      show strLe a.name b.name = true ↔ _
      unfold strLe
      constructor
      · intro h
        exact Or.inr (Or.inr ⟨h1, h2, h⟩)
      · rintro (⟨hf, ht⟩ | ⟨_, hlt⟩ | ⟨_, _, h⟩)
        · rw [hf] at h1
          rw [ht] at h1
          cases h1
        · omega
        · exact h
    · rw [if_pos h2]
      constructor
      · intro h
        exact Or.inr (Or.inl ⟨h1, of_decide_eq_true h⟩)
      · rintro (⟨hf, ht⟩ | ⟨_, hlt⟩ | ⟨_, heq, _⟩)
        · rw [hf] at h1
          rw [ht] at h1
          cases h1
        · exact decide_eq_true hlt
        · exact absurd heq h2
  · rw [if_pos h1]
    constructor
    · intro h
      have := of_decide_eq_true h
      cases ha : sortKeySmall a <;> cases hb : sortKeySmall b <;>
        rw [ha, hb] at this h1 <;> first
        | exact absurd rfl h1
        | exact Or.inl ⟨rfl, rfl⟩
        | exact absurd this (by decide)
    · rintro (⟨hf, ht⟩ | ⟨heq, _⟩ | ⟨heq, _, _⟩)
      · rw [hf, ht]
        decide
      · exact absurd heq h1
      · exact absurd heq h1

/-- The key comparison is total. -/
lemma keyLe_total (a b : MPath) : keyLe a b = true ∨ keyLe b a = true := by
  rw [keyLe_eq_true_iff, keyLe_eq_true_iff]
  by_cases h1 : sortKeySmall a = sortKeySmall b
  · by_cases h2 : a.parts.length = b.parts.length
    · rcases chLexLe_total a.name.toList b.name.toList with h | h
      · exact Or.inl (Or.inr (Or.inr ⟨h1, h2, h⟩))
      · exact Or.inr (Or.inr (Or.inr ⟨h1.symm, h2.symm, h⟩))
    · rcases Nat.lt_or_ge a.parts.length b.parts.length with h | h
      · exact Or.inl (Or.inr (Or.inl ⟨h1, h⟩))
      · have : b.parts.length < a.parts.length := by omega
        exact Or.inr (Or.inr (Or.inl ⟨h1.symm, this⟩))
  · cases ha : sortKeySmall a <;> cases hb : sortKeySmall b <;> rw [ha, hb] at h1
    · exact absurd rfl h1
    · exact Or.inl (Or.inl ⟨rfl, rfl⟩)
    · exact Or.inr (Or.inl ⟨rfl, rfl⟩)
    · exact absurd rfl h1

/-- The key comparison is transitive. -/
lemma keyLe_trans (a b c : MPath) (hab : keyLe a b = true) (hbc : keyLe b c = true) :
    keyLe a c = true := by
  rw [keyLe_eq_true_iff] at hab hbc ⊢
  rcases hab with ⟨ha, hb⟩ | ⟨hs, hl⟩ | ⟨hs, hl, hx⟩
  · rcases hbc with ⟨hb2, hc⟩ | ⟨hs2, _⟩ | ⟨hs2, _, _⟩
    · rw [hb] at hb2
      cases hb2
    · exact Or.inl ⟨ha, hs2 ▸ hb⟩
    · exact Or.inl ⟨ha, hs2 ▸ hb⟩
  · rcases hbc with ⟨hb2, hc⟩ | ⟨hs2, hl2⟩ | ⟨hs2, hl2, _⟩
    · exact Or.inl ⟨hs ▸ hb2, hc⟩
    · exact Or.inr (Or.inl ⟨hs.trans hs2, lt_trans hl hl2⟩)
    · exact Or.inr (Or.inl ⟨hs.trans hs2, by omega⟩)
  · rcases hbc with ⟨hb2, hc⟩ | ⟨hs2, hl2⟩ | ⟨hs2, hl2, hx2⟩
    · exact Or.inl ⟨hs ▸ hb2, hc⟩
    · exact Or.inr (Or.inl ⟨hs.trans hs2, by omega⟩)
    · exact Or.inr (Or.inr ⟨hs.trans hs2, hl.trans hl2,
        chLexLe_trans _ _ _ hx hx2⟩)

instance : IsTotal MPath keyRel := ⟨fun a b => keyLe_total a b⟩

instance : IsTrans MPath keyRel := ⟨fun a b c => keyLe_trans a b c⟩

/-- C3 (amended): `sort_targets_by_priority` returns the same list stably
sorted ascending by the key tuple `(name-ends-with-"_small", number of
path segments, filename)` — so it is a permutation of the input, sorted by
the key preorder, and sorting an already-sorted list leaves the order
unchanged.  Since a target's name includes its extension, the first key
component is false for every conventional file name, so the effective
order is by depth first, then filename: a non-"_small" variant precedes
its "_small" counterpart only at equal depth, not regardless of depth. -/
theorem claim_C3_sort_targets (targets : List MPath) :
    (sort_targets_by_priority targets).Perm targets ∧
    List.Sorted keyRel (sort_targets_by_priority targets) ∧
    (List.Sorted keyRel targets → sort_targets_by_priority targets = targets) := by
  exact ⟨List.perm_insertionSort keyRel targets,
    List.sorted_insertionSort keyRel targets,
    fun h => h.insertionSort_eq⟩

/-- Counterexample for C3 as stated: a `"_small"` variant at depth 1
sorts before a non-`"_small"` variant at depth 2, because the first key
component tests the full filename (extension included), which never ends
in `"_small"`. -/
theorem claim_C3_counterexample :
    sort_targets_by_priority [⟨["d", "A.png"]⟩, ⟨["A_small.png"]⟩] =
      [⟨["A_small.png"]⟩, ⟨["d", "A.png"]⟩] ∧
    strEndsWith (MPath.stem ⟨["A_small.png"]⟩) "_small" = true ∧
    strEndsWith (MPath.stem ⟨["d", "A.png"]⟩) "_small" = false := by
  decide

/-- Witness for C3 (amended) at a concrete sorted pair: sorting leaves it
unchanged. -/
theorem claim_C3_sort_targets_witness :
    sort_targets_by_priority [⟨["A.png"]⟩, ⟨["A_small.png"]⟩] =
      [⟨["A.png"]⟩, ⟨["A_small.png"]⟩] :=
  (claim_C3_sort_targets [⟨["A.png"]⟩, ⟨["A_small.png"]⟩]).2.2 (by decide)

/-! ### Lemmas about glob matching and target location -/

/-- On a metacharacter-free pattern the compiler emits only literals. -/
lemma compilePatAux_of_noMeta :
    ∀ (fuel : Nat) (l : List Char), l.length ≤ fuel → noGlobMeta l = true →
      compilePatAux fuel l = l.map GTok.lit := by
  intro fuel
  induction fuel with
  | zero =>
    intro l hl _
    cases l with
    | nil => rfl
    | cons c cs => simp at hl
  | succ fuel ih =>
    intro l hl hm
    cases l with
    | nil => rfl
    | cons c cs =>
      simp only [noGlobMeta, List.all_cons, Bool.and_eq_true] at hm
      obtain ⟨hc, hcs⟩ := hm
      obtain ⟨h1, h2, h3⟩ := of_decide_eq_true hc
      have b1 : (c == '*') = false := beq_eq_false_iff_ne.mpr h1
      have b2 : (c == '?') = false := beq_eq_false_iff_ne.mpr h2
      have b3 : (c == '[') = false := beq_eq_false_iff_ne.mpr h3
      unfold compilePatAux
      rw [b1, b2, b3]
      simp only [Bool.false_eq_true, if_false, List.map_cons]
      rw [ih cs (by simpa using Nat.le_of_succ_le_succ (by simpa using hl)) hcs]

/-- A list of literal tokens matches exactly the spelled-out string. -/
lemma gmatch_lit_iff : ∀ (l s : List Char), gmatch (l.map GTok.lit) s = true ↔ s = l := by
  intro l
  induction l with
  | nil =>
    intro s
    cases s with
    | nil => simp [gmatch]
    | cons c s => simp [gmatch]
  | cons a l ih =>
    intro s
    cases s with
    | nil => simp [gmatch]
    | cons c s =>
      simp only [List.map_cons, gmatch, Bool.and_eq_true, beq_iff_eq, ih, List.cons.injEq]
      constructor
      · rintro ⟨h1, h2⟩
        exact ⟨h1.symm, h2⟩
      · rintro ⟨h1, h2⟩
        exact ⟨h1.symm, h2⟩

/-- Glob matching against a metacharacter-free pattern is equality. -/
lemma globMatch_of_noMeta (pat s : String) (h : noGlobMeta pat.toList = true) :
    (globMatch pat s = true) ↔ s = pat := by
  unfold globMatch compilePat
  rw [compilePatAux_of_noMeta pat.toList.length pat.toList le_rfl h, gmatch_lit_iff]
  constructor
  · intro hh
    apply String.ext
    exact hh
  · intro hh
    rw [hh]

/-- Folding an append-only step equals the initial value followed by the
concatenation of the contributions. -/
lemma foldl_append_join {α β : Type} (g : β → List α) :
    ∀ (l : List β) (init : List α),
      l.foldl (fun acc b => acc ++ g b) init = init ++ (l.map g).flatten := by
  intro l
  induction l with
  | nil => intro init; simp
  | cons b l ih => intro init; simp [ih, List.append_assoc]

/-- Membership characterisation of `find_targets`: a path is returned iff
some candidate pattern glob-matches its name and it lies in the tree. -/
lemma find_targets_mem (tree : List MPath) (bases : List String) (p : MPath) :
    p ∈ find_targets tree bases ↔
      ∃ base ∈ bases, ∃ ext ∈ ALLOWED_EXTENSIONS, ∃ sfx ∈ (["", "_small"] : List String),
        p ∈ tree ∧ globMatch (base ++ sfx ++ ext) p.name = true := by
  unfold find_targets
  have hsfx : ∀ (base ext : String) (ts : List MPath),
      (["", "_small"] : List String).foldl
        (fun ts sfx => ts ++ rglobMatches tree (base ++ sfx ++ ext)) ts =
        ts ++ ((["", "_small"] : List String).map
          fun sfx => rglobMatches tree (base ++ sfx ++ ext)).flatten := by
    intro base ext ts
    exact foldl_append_join _ _ ts
  have hext : ∀ (base : String) (ts : List MPath),
      ALLOWED_EXTENSIONS.foldl
        (fun ts ext =>
          (["", "_small"] : List String).foldl
            (fun ts sfx => ts ++ rglobMatches tree (base ++ sfx ++ ext)) ts) ts =
        ts ++ (ALLOWED_EXTENSIONS.map fun ext =>
          ((["", "_small"] : List String).map
            fun sfx => rglobMatches tree (base ++ sfx ++ ext)).flatten).flatten := by
    intro base ts
    rw [show (fun ts ext =>
          (["", "_small"] : List String).foldl
            (fun ts sfx => ts ++ rglobMatches tree (base ++ sfx ++ ext)) ts) =
        (fun ts ext => ts ++ ((["", "_small"] : List String).map
          fun sfx => rglobMatches tree (base ++ sfx ++ ext)).flatten) from
      funext fun ts => funext fun ext => hsfx base ext ts]
    exact foldl_append_join _ _ ts
  rw [show (fun ts base =>
        ALLOWED_EXTENSIONS.foldl
          (fun ts ext =>
            (["", "_small"] : List String).foldl
              (fun ts sfx => ts ++ rglobMatches tree (base ++ sfx ++ ext)) ts) ts) =
      (fun ts base => ts ++ (ALLOWED_EXTENSIONS.map fun ext =>
        ((["", "_small"] : List String).map
          fun sfx => rglobMatches tree (base ++ sfx ++ ext)).flatten).flatten) from
    funext fun ts => funext fun base => hext base ts]
  rw [foldl_append_join]
  simp only [List.nil_append, List.mem_flatten, List.mem_map, rglobMatches, List.mem_filter,
    exists_exists_and_eq_and]

/-- C4 (amended): the Target Locator returns exactly those files anywhere
under the tree whose filename *glob-matches* `candidate+suffix+extension`
for some candidate, suffix in `{"", "_small"}` and extension in
`{.png, .jpg, .jpeg}`; because `rglob` interprets its argument as a glob
pattern, this coincides with an exact filename equality precisely for
candidates free of the metacharacters `*`, `?` and `[`, while candidates
containing them are pattern matches. -/
theorem claim_C4_target_locator (tree : List MPath) (bases : List String)
    (hmeta : ∀ b ∈ bases, noGlobMeta b.toList = true) (p : MPath) :
    p ∈ find_targets tree bases ↔
      ∃ base ∈ bases, ∃ ext ∈ ALLOWED_EXTENSIONS, ∃ sfx ∈ (["", "_small"] : List String),
        p ∈ tree ∧ p.name = base ++ sfx ++ ext := by
  rw [find_targets_mem]
  constructor
  · rintro ⟨base, hbase, ext, hext, sfx, hsfx, hp, hg⟩
    refine ⟨base, hbase, ext, hext, sfx, hsfx, hp, ?_⟩
    refine (globMatch_of_noMeta _ _ ?_).mp hg
    have hb := hmeta base hbase
    have hs : noGlobMeta sfx.toList = true := by
      simp only [List.mem_cons, List.not_mem_nil, or_false] at hsfx
      rcases hsfx with rfl | rfl <;> decide
    have he : noGlobMeta ext.toList = true := by
      simp only [ALLOWED_EXTENSIONS, List.mem_cons, List.not_mem_nil, or_false] at hext
      rcases hext with rfl | rfl | rfl <;> decide
    unfold noGlobMeta at hb hs he ⊢
    rw [show (base ++ sfx ++ ext).toList = base.toList ++ sfx.toList ++ ext.toList by
      simp [String.toList]]
    simp only [List.all_append, Bool.and_eq_true]
    exact ⟨⟨hb, hs⟩, he⟩
  · rintro ⟨base, hbase, ext, hext, sfx, hsfx, hp, he⟩
    refine ⟨base, hbase, ext, hext, sfx, hsfx, hp, ?_⟩
    refine (globMatch_of_noMeta _ _ ?_).mpr he
    have hb := hmeta base hbase
    have hs : noGlobMeta sfx.toList = true := by
      simp only [List.mem_cons, List.not_mem_nil, or_false] at hsfx
      rcases hsfx with rfl | rfl <;> decide
    have hee : noGlobMeta ext.toList = true := by
      simp only [ALLOWED_EXTENSIONS, List.mem_cons, List.not_mem_nil, or_false] at hext
      rcases hext with rfl | rfl | rfl <;> decide
    unfold noGlobMeta at hb hs hee ⊢
    rw [show (base ++ sfx ++ ext).toList = base.toList ++ sfx.toList ++ ext.toList by
      simp [String.toList]]
    simp only [List.all_append, Bool.and_eq_true]
    exact ⟨⟨hb, hs⟩, hee⟩

/-- Counterexample for C4 as stated: the candidate `"A*"` contains a glob
metacharacter, and `find_targets` returns the file `AB.png`, whose name
equals no `candidate+suffix+extension` combination — the match is a
pattern match, not an exact filename match. -/
theorem claim_C4_counterexample :
    find_targets [⟨["AB.png"]⟩] ["A*"] = [⟨["AB.png"]⟩] ∧
    ((["", "_small"] : List String).all fun sfx =>
      ALLOWED_EXTENSIONS.all fun ext => "AB.png" ≠ "A*" ++ sfx ++ ext) = true := by
  decide

/-- Witness for C4 (amended) at a metacharacter-free candidate list: the
nested file `cards/OP02-068.png` is located by exact name. -/
theorem claim_C4_target_locator_witness :
    ⟨["cards", "OP02-068.png"]⟩ ∈
      find_targets [⟨["cards", "OP02-068.png"]⟩] ["OP02-068"] := by
  refine (claim_C4_target_locator [⟨["cards", "OP02-068.png"]⟩] ["OP02-068"]
    (by decide) ⟨["cards", "OP02-068.png"]⟩).mpr ?_
  exact ⟨"OP02-068", by decide, ".png", by decide, "", by decide, by decide, by decide⟩

/-! ### Safety of the primary-target index and batch isolation -/

/-- C10: the primary-target index access is always in bounds: processing
returns early, with no side effects, whenever the located target list is
empty, and both prioritisation and path normalisation preserve list
length, so the normalised list indexed by `process` is non-empty whenever
the located target list is. -/
theorem claim_C10_primary_in_bounds (o : Oracle) (alt : MPath) (s : BatchState) :
    (find_targets s.fs (altBases alt) = [] → process o alt s = .ok s) ∧
    (sort_targets_by_priority (find_targets s.fs (altBases alt))).length =
      (find_targets s.fs (altBases alt)).length ∧
    (convert_to_png_paths o.unlinkFails
        (sort_targets_by_priority (find_targets s.fs (altBases alt))) s.fs).1.length =
      (find_targets s.fs (altBases alt)).length ∧
    (find_targets s.fs (altBases alt) ≠ [] →
      (convert_to_png_paths o.unlinkFails
        (sort_targets_by_priority (find_targets s.fs (altBases alt))) s.fs).1 ≠ []) := by
  have hsort : (sort_targets_by_priority (find_targets s.fs (altBases alt))).length =
      (find_targets s.fs (altBases alt)).length :=
    (List.perm_insertionSort keyRel _).length_eq
  have hconv : (convert_to_png_paths o.unlinkFails
      (sort_targets_by_priority (find_targets s.fs (altBases alt))) s.fs).1.length =
      (find_targets s.fs (altBases alt)).length := by
    rw [convert_to_png_paths_fst, List.length_map]
    exact hsort
  refine ⟨?_, hsort, hconv, ?_⟩
  · intro h
    unfold process
    rw [if_pos h]
  · intro h hnil
    apply h
    have : (find_targets s.fs (altBases alt)).length = 0 := by
      rw [← hconv, hnil]
      rfl
    exact List.eq_nil_of_length_eq_zero this

/-- Witness for C10 at the concrete scenario with one located target: the
normalised target list is non-empty. -/
theorem claim_C10_primary_in_bounds_witness :
    (convert_to_png_paths oracleAllOk.unlinkFails
      (sort_targets_by_priority (find_targets stateX.fs (altBases altX))) stateX.fs).1 ≠ [] :=
  (claim_C10_primary_in_bounds oracleAllOk altX stateX).2.2.2 (by decide)

/-- The staged alternate images are untouched whenever the decoder fails
on the image being processed. -/
lemma stepCaught_alts_of_decode_fail (o : Oracle) (s : BatchState) (alt : MPath)
    (h : o.decodeOk alt = false) : (stepCaught o s alt).alts = s.alts := by
  unfold stepCaught process
  by_cases htg : find_targets s.fs (altBases alt) = []
  · rw [if_pos htg]
  · rw [if_neg htg]
    dsimp only
    cases hres : (convert_to_png_paths o.unlinkFails
        (sort_targets_by_priority (find_targets s.fs (altBases alt))) s.fs).1 with
    | nil => rfl
    | cons primary rest =>
      rw [h]
      dsimp only
      rw [if_neg (show ¬false = true by decide)]

/-- C8: every exception escaping the processing of one alternate image is
caught at the orchestrator boundary and turned into a skip, so the batch
always continues with the remaining images from the state the failed
processing left behind; a successful image likewise hands its state to
the rest of the batch; and on transcode (decode) failure the failing
image's staged alternate file is not deleted, the cleanup step being
unreachable. -/
theorem claim_C8_batch_isolation (o : Oracle) (s : BatchState) (alt : MPath)
    (rest : List MPath) :
    (∀ e, process o alt s = .error e →
      replace_alt_cards o (alt :: rest) s = replace_alt_cards o rest e) ∧
    (∀ s2, process o alt s = .ok s2 →
      replace_alt_cards o (alt :: rest) s = replace_alt_cards o rest s2) ∧
    (o.decodeOk alt = false → (stepCaught o s alt).alts = s.alts) := by
  refine ⟨?_, ?_, stepCaught_alts_of_decode_fail o s alt⟩
  · intro e he
    unfold replace_alt_cards
    rw [List.foldl_cons]
    unfold stepCaught
    rw [he]
  · intro s2 hs2
    unfold replace_alt_cards
    rw [List.foldl_cons]
    unfold stepCaught
    rw [hs2]

/-- Witness for C8 at the concrete decode-failure scenario: the batch
over `[altX]` continues (and terminates) from the error state, which
still holds the alternate image. -/
theorem claim_C8_batch_isolation_witness :
    replace_alt_cards oracleDecodeFail [altX] stateX =
      replace_alt_cards oracleDecodeFail [] ⟨[], [altX]⟩ :=
  (claim_C8_batch_isolation oracleDecodeFail stateX altX []).1 ⟨[], [altX]⟩ rfl

/-! ### RGB conversion and the missing resize step -/

/-- Blending anything into an opaque white background with mask value 0
yields white. -/
lemma blendCh_zero (s : Nat) : blendCh 0 255 s = 255 := by
  unfold blendCh muldiv255
  simp

/-- C7: RGB conversion always yields an RGB-mode image: inputs with an
alpha channel (RGBA or LA) or palette inputs with transparency are
composited over opaque white, so every result pixel is fully opaque and a
fully transparent input pixel becomes white (255,255,255); any other
non-RGB mode is coerced to RGB; an already-RGB image is returned
unchanged. -/
theorem claim_C7_convert_to_rgb (image : PImage) (x y : Nat) :
    (convert_to_rgb image).mode = .RGB ∧
    ((image.mode = .RGBA ∨ image.mode = .LA ∨
        (image.mode = .P ∧ image.transparency = true)) →
      ((convert_to_rgb image).px x y).a = 255 ∧
      ((image.px x y).a = 0 →
        (convert_to_rgb image).px x y = ⟨255, 255, 255, 255⟩)) ∧
    (image.mode = .RGB → convert_to_rgb image = image) := by
  unfold convert_to_rgb
  by_cases hc : (image.mode = .RGBA ∨ image.mode = .LA) ∨
      (image.mode = .P ∧ image.transparency = true)
  · rw [if_pos hc]
    refine ⟨rfl, ?_, ?_⟩
    · intro _
      refine ⟨rfl, ?_⟩
      intro ha
      show Rgba.mk (blendCh (image.px x y).a 255 (image.px x y).r)
          (blendCh (image.px x y).a 255 (image.px x y).g)
          (blendCh (image.px x y).a 255 (image.px x y).b) 255 = _
      rw [ha, blendCh_zero, blendCh_zero, blendCh_zero]
    · intro h
      exfalso
      rcases hc with (h1 | h1) | ⟨h1, _⟩ <;> rw [h] at h1 <;> cases h1
  · rw [if_neg hc]
    by_cases hrgb : image.mode = .RGB
    · rw [if_neg (by simp [hrgb])]
      refine ⟨hrgb, ?_, fun _ => rfl⟩
      intro hyp
      exfalso
      rcases hyp with h1 | h1 | ⟨h1, h2⟩
      · exact hc (Or.inl (Or.inl h1))
      · exact hc (Or.inl (Or.inr h1))
      · exact hc (Or.inr ⟨h1, h2⟩)
    · rw [if_pos hrgb]
      refine ⟨rfl, ?_, fun h => absurd h hrgb⟩
      intro hyp
      exfalso
      rcases hyp with h1 | h1 | ⟨h1, h2⟩
      · exact hc (Or.inl (Or.inl h1))
      · exact hc (Or.inl (Or.inr h1))
      · exact hc (Or.inr ⟨h1, h2⟩)

/-- Witness for C7 at a concrete transparent RGBA pixel: the converted
pixel is opaque white. -/
theorem claim_C7_convert_to_rgb_witness :
    (convert_to_rgb imgAlphaTest).px 0 0 = ⟨255, 255, 255, 255⟩ :=
  ((claim_C7_convert_to_rgb imgAlphaTest 0 0).2.1 (Or.inl rfl)).2 rfl

/-- C1 (code bug): `save_as_png` contains no resize step, so the 2000 by
1500 source of the repository's own `test_image_resizing` is written at
2000 by 1500, while the spec (and that test's assertions) require the
downscaled size 1024 by 768. -/
theorem claim_C1_no_resize :
    ((save_as_png_image img2000).width, (save_as_png_image img2000).height) = (2000, 1500) ∧
    specDownscaleDims 2000 1500 = (1024, 768) ∧
    ((save_as_png_image img2000).width, (save_as_png_image img2000).height) ≠
      specDownscaleDims 2000 1500 := by
  refine ⟨rfl, by decide, ?_⟩
  intro h
  rw [show specDownscaleDims 2000 1500 = (1024, 768) from by decide] at h
  cases h

end AltArt
